import Mathlib

/-!
Verification development for a small Flask question-answering assistant
(`main.py`).  The core logic is embedded shallowly:

* Python strings are Lean `String`s; `str.strip` / `str.lower` are modelled
  over their character data for the ASCII range (all strings occurring in the
  program are ASCII).
* Python `dict`s (insertion ordered, unique keys) are association lists with
  the update-in-place / append-at-end discipline of CPython dicts.
* The two mutating HTTP handlers (`home` for POST of a student query,
  `teacher_input` for POST of a teacher response) become explicit state
  transformers over an `AppState` record holding the in-memory corpus
  (`qa_dict`), the unread-count dict and its persisted copy
  (`unread_messages.json`), the persisted `Sheet1` partition of the Excel
  corpus file, and the per-session values (`unanswered_question`,
  `assigned_teacher`, `bot_response`).
* `difflib.get_close_matches` (standard library, outside the repository) is
  modelled from its documented semantics; real-valued similarity ratios are
  modelled by exact rationals.
-/

/-- ASCII model of Python `str.lower` on a single character: characters
`A`..`Z` (codes 65..90) are shifted by 32, all others are unchanged. -/
def lowerChar (c : Char) : Char :=
  if 65 ≤ c.toNat ∧ c.toNat ≤ 90 then Char.ofNat (c.toNat + 32) else c

/-- ASCII model of Python `str.lower`. -/
def pyLower (s : String) : String :=
  ⟨s.data.map lowerChar⟩

/-- Python whitespace characters recognised by `str.strip`. -/
def isPySpace (c : Char) : Bool :=
  c == ' ' || c == '\t' || c == '\n' || c == '\r' || c == '\x0b' || c == '\x0c'

/-- Model of Python `str.strip`: drop whitespace from both ends. -/
def pyStrip (s : String) : String :=
  ⟨((s.data.dropWhile isPySpace).reverse.dropWhile isPySpace).reverse⟩

/-- `leadEq sub l` : `sub` is an initial segment of `l`. -/
def leadEq : List Char → List Char → Bool
  | [], _ => true
  | _ :: _, [] => false
  | a :: as, b :: bs => a == b && leadEq as bs

/-- `hasSub sub l` : `sub` occurs contiguously somewhere in `l`; the model of
Python's `sub in l` substring test. -/
def hasSub (sub : List Char) : List Char → Bool
  | [] => leadEq sub []
  | c :: t => leadEq sub (c :: t) || hasSub sub t

/-- Number of starting positions of `l` (including its end) at which `sub`
occurs; counts overlapping occurrences. -/
def occCount (sub : List Char) : List Char → Nat
  | [] => if leadEq sub [] then 1 else 0
  | c :: t => (if leadEq sub (c :: t) then 1 else 0) + occCount sub t

/-- `strContains q k` : the keyword `k` occurs as a substring of `q`
(Python `k in q`). -/
def strContains (q k : String) : Bool :=
  hasSub k.data q.data

/-- Python dict lookup `d[k]` / `d.get(k)` over an association list. -/
def dictLookup {α : Type} (l : List (String × α)) (k : String) : Option α :=
  (l.find? (fun p => p.1 == k)).map Prod.snd

/-- Python `d.get(k, dflt)`. -/
def dictGetD {α : Type} (l : List (String × α)) (k : String) (dflt : α) : α :=
  (dictLookup l k).getD dflt

/-- Python dict assignment `d[k] = v`: an existing key keeps its position and
gets the new value; a new key is appended at the end. -/
def dictInsert {α : Type} : List (String × α) → String → α → List (String × α)
  | [], k, v => [(k, v)]
  | p :: ps, k, v => if p.1 = k then (k, v) :: ps else p :: dictInsert ps k v

/-- The `labels` dict of `main.py`: domain name to responder (teacher). -/
def labels : List (String × String) :=
  [("Admission", "Dr Gohar"),
   ("Scholarship", "Dr Naeem"),
   ("Student Affairs", "Sir Sibtual Hassan"),
   ("Academics", "Teacher Kinza"),
   ("Migration", "Dr Asim Zeb")]

/-- Lookup in `labels`; Python `labels[d]` would raise on a missing key, which
is unreachable for the domains the program produces, so a default suffices. -/
def labelsGet (d : String) : String :=
  dictGetD labels d ""

/-- The `common_responses` dict of `main.py` (fixed greeting/courtesy
responses). -/
def common_responses : List (String × String) :=
  [("hi", "Hello! How can I assist you today?"),
   ("hello", "Hi there! What can I do for you?"),
   ("hey", "Hey! How can I help you?"),
   ("good morning", "Good morning! How can I assist you today?"),
   ("good afternoon", "Good afternoon! What can I do for you?"),
   ("good evening", "Good evening! How can I help you?"),
   ("bye", "Goodbye! Have a great day!"),
   ("goodbye", "See you later! Take care!"),
   ("thank you", "You\x27re welcome!"),
   ("thanks", "You\x27re welcome!"),
   ("welcome", "Thank you! How can I assist you further?"),
   ("how are you", "I\x27m just a bot, but I\x27m here to help you! How can I assist you today?"),
   ("what\x27s up", "Not much, just here to help you! What can I do for you?")]

/-- The `domain_keywords` dict of `main.py`, in declaration order. -/
def domain_keywords : List (String × List String) :=
  [("Admission", ["admission", "admit", "apply", "form", "test", "document",
                  "verification", "eligibility", "deadline"]),
   ("Scholarship", ["scholarship", "financial aid", "grant", "funding",
                    "tuition", "discount", "fee waiver"]),
   ("Student Affairs", ["event", "club", "extracurricular", "activity",
                        "engagement", "student life", "hostel", "facility"]),
   ("Academics", ["exam", "course", "grade", "attendance", "syllabus",
                  "result", "academic", "lecture", "assignment"]),
   ("Migration", ["migration", "transfer", "relocation", "visa",
                  "immigration", "international", "abroad"])]

/-- The inner loop of `classify_query`: `for keyword in keywords: if keyword
in query: count += 1`.  Each iteration only touches the current domain's dict
entry, so a plain accumulator is an exact rendering. -/
def domainCount (q : String) (ks : List String) : Nat :=
  ks.foldl (fun c k => if strContains q k then c + 1 else c) 0

/-- The `domain_match_counts` dict of `classify_query` after both loops,
with the query already lowercased inside. -/
def domainScores (query : String) : List (String × Nat) :=
  domain_keywords.map (fun p => (p.1, domainCount (pyLower query) p.2))

/-- Python `max` over a list of naturals (the list is nonempty in the
program, so folding from `0` agrees with Python's `max`). -/
def listMax (l : List Nat) : Nat :=
  l.foldl Nat.max 0

/-- `max(domain_match_counts.values())` in `classify_query`. -/
def maxScore (query : String) : Nat :=
  listMax ((domainScores query).map Prod.snd)

/-- `classify_query` of `main.py`.  The list comprehension
`[domain for domain, count in counts.items() if count == max_matches][0]`
is `find?` over the insertion-ordered dict; its `[0]` cannot fail when the
maximum is positive (it is attained), so the `none` branch is unreachable
and returns the same default as the zero-score path. -/
def classify_query (query : String) : String × String :=
  let counts := domainScores query
  let maxMatches := maxScore query
  if 0 < maxMatches then
    match counts.find? (fun p => p.2 == maxMatches) with
    | some p => (p.1, labelsGet p.1)
    | none => ("Student Affairs", labelsGet "Student Affairs")
  else
    ("Student Affairs", labelsGet "Student Affairs")

/-- Modelled from the spec, for claim C1's reading of the scoring: a domain's
score is the total number of substring occurrences of its keywords in the
lowercased query (a keyword occurring `k` times contributes `k`). -/
def domainOccCount (q : String) (ks : List String) : Nat :=
  ks.foldl (fun c k => c + occCount k.data q.data) 0

/-- Modelled from the spec (claim C1): `classify_query` with per-occurrence
scoring instead of per-keyword scoring; the selection rule is unchanged. -/
def domainOccScores (query : String) : List (String × Nat) :=
  domain_keywords.map (fun p => (p.1, domainOccCount (pyLower query) p.2))

/-- Modelled from the spec (claim C1): selection over occurrence scores. -/
def classify_query_occ (query : String) : String × String :=
  let counts := domainOccScores query
  let maxMatches := listMax (counts.map Prod.snd)
  if 0 < maxMatches then
    match counts.find? (fun p => p.2 == maxMatches) with
    | some p => (p.1, labelsGet p.1)
    | none => ("Student Affairs", labelsGet "Student Affairs")
  else
    ("Student Affairs", labelsGet "Student Affairs")

/-- The amended claim C1's scoring, written from the amended words: each of a
domain's keywords contributes `1` if it occurs at least once as a substring of
the lowercased query (count of distinct matched keywords). -/
def domainDistinctScores (query : String) : List (String × Nat) :=
  domain_keywords.map
    (fun p => (p.1, p.2.countP (fun k => strContains (pyLower query) k)))

/-- The amended claim C1's classifier: selection (first maximum in declaration
order, `Student Affairs` fallback on an all-zero score) over the
distinct-keyword scores. -/
def classify_query_distinct (query : String) : String × String :=
  let counts := domainDistinctScores query
  let maxMatches := listMax (counts.map Prod.snd)
  if 0 < maxMatches then
    match counts.find? (fun p => p.2 == maxMatches) with
    | some p => (p.1, labelsGet p.1)
    | none => ("Student Affairs", labelsGet "Student Affairs")
  else
    ("Student Affairs", labelsGet "Student Affairs")

/-- Length of the longest common initial run of two character lists. -/
def runLen : List Char → List Char → Nat
  | a :: as, b :: bs => if a == b then runLen as bs + 1 else 0
  | _, _ => 0

/-- Length of the matching run of `a` and `b` starting at positions `i`, `j`. -/
def runAt (a b : List Char) (i j : Nat) : Nat :=
  runLen (a.drop i) (b.drop j)

/-- Modelled from the spec: candidate matching blocks examined by difflib's
`SequenceMatcher.find_longest_match` inside the window
`[alo, ahi) × [blo, bhi)`, in the scan order of the Python loop (positions in
`a` outermost, ascending).  Each candidate records its start `(i, j)` and the
length of the match there, capped to the window. -/
def lmCands (a b : List Char) (alo ahi blo bhi : Nat) : List (Nat × Nat × Nat) :=
  (List.range' alo (ahi - alo)).flatMap
    (fun i => (List.range' blo (bhi - blo)).map
      (fun j => (i, j, min (runAt a b i j) (min (ahi - i) (bhi - j)))))

/-- Modelled from the spec: difflib's `find_longest_match` without junk (the
autojunk heuristic only applies to sequences of 200 or more characters and is
out of scope): the longest matching block in the window, ties resolved by the
earliest start in `a`, then the earliest start in `b`; `(alo, blo, 0)` when
nothing matches. -/
def lm (a b : List Char) (alo ahi blo bhi : Nat) : Nat × Nat × Nat :=
  (lmCands a b alo ahi blo bhi).foldl
    (fun best c => if best.2.2 < c.2.2 then c else best) (alo, blo, 0)

/-- Modelled from the spec: total size of the matching blocks found by
difflib's recursive block decomposition (`get_matching_blocks`), the quantity
`M` of `ratio = 2*M/T`.  The `fuel` argument bounds the recursion depth; every
recursive call strictly shrinks the window, so the initial fuel supplied by
`matchSize` is never exhausted (see `msGo_fuel_irrelevant`). -/
def msGo (a b : List Char) : Nat → Nat → Nat → Nat → Nat → Nat
  | 0, _, _, _, _ => 0
  | fuel + 1, alo, ahi, blo, bhi =>
    let t := lm a b alo ahi blo bhi
    if 0 < t.2.2 then
      msGo a b fuel alo t.1 blo t.2.1 + t.2.2 +
        msGo a b fuel (t.1 + t.2.2) ahi (t.2.1 + t.2.2) bhi
    else 0

/-- Total matched size `M` for two character lists. -/
def matchSize (a b : List Char) : Nat :=
  msGo a b (a.length + b.length + 1) 0 a.length 0 b.length

/-- Modelled from the spec: difflib's `SequenceMatcher.ratio()` between a
candidate `a` and the query `b`, `2*M/T` with `T` the total length (`1` when
both are empty, as in difflib's `_calculate_ratio`).  Real arithmetic is
modelled exactly by rationals. -/
def ratioQ (a b : String) : Rat :=
  let la := a.data.length
  let lb := b.data.length
  if la + lb = 0 then 1 else (2 * (matchSize a.data b.data) : Rat) / ((la : Rat) + (lb : Rat))

/-- Modelled from the spec: one step of `get_close_matches`' scan with
`n = 1` and `cutoff = 0.6`: keep the candidate with the largest
`(ratio, string)` pair -- the tie order of `heapq.nlargest` over
`(ratio, string)` tuples -- among those with `ratio ≥ 0.6`.  The chained
`real_quick_ratio` / `quick_ratio` tests of the Python code are upper bounds
of `ratio` and do not change which candidates pass. -/
def scanStep (word : String) (acc : Option (Rat × String)) (x : String) :
    Option (Rat × String) :=
  let r := ratioQ x word
  if (3 : Rat)/5 ≤ r then
    match acc with
    | none => some (r, x)
    | some p => if p.1 < r ∨ (p.1 = r ∧ p.2 < x) then some (r, x) else some p
  else acc

/-- Modelled from the spec: `difflib.get_close_matches(word, poss, n=1,
cutoff=0.6)`, returning the single best match if any. -/
def getCloseMatch (word : String) (poss : List String) : Option String :=
  (poss.foldl (scanStep word) none).map Prod.snd

/-- `get_answer_from_dataset` of `main.py` over an explicit corpus dict:
fuzzy-match the question against the corpus keys and return the matched
key's answer. -/
def get_answer_from_dataset (qa : List (String × String)) (question : String) :
    Option String :=
  match getCloseMatch question (qa.map Prod.fst) with
  | some m => dictLookup qa m
  | none => none

/-- The mutable process/session state of `main.py`:
`sheet1` is the persisted `Sheet1` partition of the Excel corpus file (the
only partition the program writes), `qa` the in-memory `qa_dict`, `unread`
the in-memory `unread_messages` dict, `fileUnread` its persisted copy in
`unread_messages.json`, `pending` the session pair
(`unanswered_question`, `assigned_teacher`), and `botResponse` the session's
`bot_response`. -/
structure AppState where
  sheet1 : List (String × String)
  qa : List (String × String)
  unread : List (String × Nat)
  fileUnread : List (String × Nat)
  pending : Option (String × String)
  botResponse : String
deriving DecidableEq, Repr

/-- Outcome of a POST to `/`: render the chat page with a bot response, or
redirect to the teacher page. -/
inductive HomeResult where
  | page (resp : String)
  | redirectTeacher
deriving DecidableEq, Repr

/-- The corpus-append block of `teacher_input` (`main.py` lines 314-324):
read the persisted `Sheet1` rows, append the new `(question, response)` row,
write the partition back, and assign `qa_dict[question] = response`.  Returns
the new persisted partition and the new in-memory dict. -/
def corpus_append (sheet1 qa : List (String × String)) (q a : String) :
    List (String × String) × List (String × String) :=
  (sheet1 ++ [(q, a)], dictInsert qa q a)

/-- POST handler of `/` (`home` in `main.py`): normalise the raw form value
by `strip` then `lower`; if it is a key of `common_responses`, answer with
the canned response; otherwise try the fuzzy corpus match; otherwise classify
the query, record the pending question and assigned teacher in the session,
increment that teacher's unread count, persist the unread dict, and redirect
to the teacher page (leaving the session's `bot_response` unchanged). -/
def home_post (st : AppState) (raw : String) : AppState × HomeResult :=
  let question := pyLower (pyStrip raw)
  match dictLookup common_responses question with
  | some resp => ({ st with botResponse := resp }, HomeResult.page resp)
  | none =>
    match get_answer_from_dataset st.qa question with
    | some ans => ({ st with botResponse := ans }, HomeResult.page ans)
    | none =>
      let teacher := (classify_query question).2
      let newUnread := dictInsert st.unread teacher (dictGetD st.unread teacher 0 + 1)
      ({ st with pending := some (question, teacher),
                 unread := newUnread,
                 fileUnread := newUnread },
       HomeResult.redirectTeacher)

/-- POST handler of `/teacher` (`teacher_input` in `main.py`): with the
stripped response nonempty and both session values present and nonempty
(Python truthiness of `response and assigned_teacher and question`), append
to the corpus, reset the assigned teacher's unread count to `0`, persist the
unread dict, clear the session pair and set the session's `bot_response`;
otherwise nothing is mutated (the form is merely re-rendered). -/
def teacher_input_post (st : AppState) (rawResponse : String) : AppState :=
  let response := pyStrip rawResponse
  match st.pending with
  | some (question, teacher) =>
    if response ≠ "" ∧ teacher ≠ "" ∧ question ≠ "" then
      let app := corpus_append st.sheet1 st.qa question response
      { st with sheet1 := app.1, qa := app.2,
                unread := dictInsert st.unread teacher 0,
                fileUnread := dictInsert st.unread teacher 0,
                pending := none,
                botResponse := response }
    else st
  | none => st

/-- The startup corpus load of `main.py` (lines 30-36), over explicit sheet
contents: for each sheet in order, keep the rows whose first cell is not
blank after stripping (rows with an absent cell are already excluded by
`dropna` and are not modelled), and merge them into the dict with Python's
`dict(zip(...))` / `dict.update` semantics. -/
def loadQaDict (sheetsRows : List (List (String × String))) :
    List (String × String) :=
  sheetsRows.foldl
    (fun acc rows =>
      (rows.filter (fun p => pyStrip p.1 ≠ "")).foldl
        (fun d p => dictInsert d p.1 p.2) acc)
    []

/-! ### Generic list and dict lemmas -/

lemma foldl_count_eq {α : Type} (p : α → Bool) :
    ∀ (l : List α) (c : Nat),
      l.foldl (fun c k => if p k then c + 1 else c) c = c + l.countP p := by
  intro l
  induction l with
  | nil => intro c; simp
  | cons x t ih =>
    intro c
    simp only [List.foldl_cons, List.countP_cons, ih]
    by_cases h : p x
    · simp [h]; omega
    · simp [h]

lemma domainCount_eq_countP (q : String) (ks : List String) :
    domainCount q ks = ks.countP (fun k => strContains q k) := by
  simpa [domainCount] using foldl_count_eq (fun k => strContains q k) ks 0

lemma foldl_max_ge_init : ∀ (l : List Nat) (a : Nat), a ≤ l.foldl Nat.max a := by
  intro l
  induction l with
  | nil => intro a; simp
  | cons x t ih =>
    intro a
    simp only [List.foldl_cons]
    exact le_trans (Nat.le_max_left a x) (ih (Nat.max a x))

lemma foldl_max_mem : ∀ (l : List Nat) (a : Nat),
    l.foldl Nat.max a = a ∨ l.foldl Nat.max a ∈ l := by
  intro l
  induction l with
  | nil => intro a; exact Or.inl rfl
  | cons x t ih =>
    intro a
    simp only [List.foldl_cons]
    rcases ih (Nat.max a x) with h | h
    · rw [h]
      rcases Nat.le_total a x with h' | h'
      · have hx : Nat.max a x = x := Nat.max_eq_right h'
        exact Or.inr (by rw [hx]; exact List.mem_cons_self x t)
      · have hx : Nat.max a x = a := Nat.max_eq_left h'
        exact Or.inl hx
    · exact Or.inr (List.mem_cons_of_mem x h)

lemma le_foldl_max : ∀ (l : List Nat) (a x : Nat), x ∈ l → x ≤ l.foldl Nat.max a := by
  intro l
  induction l with
  | nil => intro a x h; cases h
  | cons y t ih =>
    intro a x h
    simp only [List.foldl_cons]
    rcases List.mem_cons.mp h with rfl | h'
    · exact le_trans (Nat.le_max_right a x) (foldl_max_ge_init t (Nat.max a x))
    · exact ih (Nat.max a y) x h'

lemma listMax_zero_or_mem (l : List Nat) : listMax l = 0 ∨ listMax l ∈ l :=
  foldl_max_mem l 0

lemma le_listMax (l : List Nat) (x : Nat) (h : x ∈ l) : x ≤ listMax l :=
  le_foldl_max l 0 x h

lemma find?_decomp {α : Type} (p : α → Bool) :
    ∀ (l : List α) (x : α), l.find? p = some x →
      p x = true ∧ ∃ l₁ l₂, l = l₁ ++ x :: l₂ ∧ ∀ y ∈ l₁, p y = false := by
  intro l
  induction l with
  | nil => intro x h; simp [List.find?] at h
  | cons a t ih =>
    intro x h
    by_cases ha : p a
    · rw [List.find?_cons_of_pos _ ha] at h
      obtain rfl := Option.some.inj h
      exact ⟨ha, [], t, rfl, by simp⟩
    · rw [List.find?_cons_of_neg _ (by simpa using ha)] at h
      obtain ⟨hx, l₁, l₂, rfl, hl₁⟩ := ih x h
      refine ⟨hx, a :: l₁, l₂, rfl, ?_⟩
      intro y hy
      rcases List.mem_cons.mp hy with rfl | hy'
      · simpa using ha
      · exact hl₁ y hy'

lemma dictLookup_nil {α : Type} (k : String) : dictLookup ([] : List (String × α)) k = none := rfl

lemma dictLookup_cons {α : Type} (p : String × α) (ps : List (String × α)) (k : String) :
    dictLookup (p :: ps) k = if p.1 = k then some p.2 else dictLookup ps k := by
  by_cases h : p.1 = k
  · simp [dictLookup, List.find?_cons_of_pos, h]
  · simp [dictLookup, List.find?_cons_of_neg, h]

lemma dictLookup_insert_self {α : Type} (l : List (String × α)) (k : String) (v : α) :
    dictLookup (dictInsert l k v) k = some v := by
  induction l with
  | nil => simp [dictInsert, dictLookup_cons]
  | cons p ps ih =>
    by_cases h : p.1 = k
    · simp [dictInsert, h, dictLookup_cons]
    · simp [dictInsert, h, dictLookup_cons, ih]

lemma dictLookup_insert_ne {α : Type} (l : List (String × α)) (k k' : String) (v : α)
    (h : k' ≠ k) : dictLookup (dictInsert l k v) k' = dictLookup l k' := by
  have hne : ¬ k = k' := fun h' => h h'.symm
  induction l with
  | nil => simp [dictInsert, dictLookup_cons, dictLookup_nil, hne]
  | cons p ps ih =>
    by_cases hp : p.1 = k
    · subst hp
      have hne' : ¬ p.1 = k' := fun h' => h h'.symm
      simp [dictInsert, dictLookup_cons, hne']
    · simp [dictInsert, hp, dictLookup_cons, ih]

lemma mem_keys_insert_self {α : Type} (l : List (String × α)) (k : String) (v : α) :
    k ∈ (dictInsert l k v).map Prod.fst := by
  induction l with
  | nil => simp [dictInsert]
  | cons p ps ih =>
    by_cases h : p.1 = k
    · simp [dictInsert, h]
    · simp only [dictInsert, if_neg h, List.map_cons]
      exact List.mem_cons_of_mem _ ih

lemma mem_keys_insert {α : Type} (l : List (String × α)) (k k' : String) (v : α)
    (h : k' ∈ (dictInsert l k v).map Prod.fst) :
    k' ∈ l.map Prod.fst ∨ k' = k := by
  induction l with
  | nil => simpa [dictInsert] using h
  | cons p ps ih =>
    by_cases hp : p.1 = k
    · simp only [dictInsert, if_pos hp, List.map_cons] at h
      rcases List.mem_cons.mp h with h' | h'
      · exact Or.inr h'
      · exact Or.inl (by rw [List.map_cons, hp]; exact List.mem_cons_of_mem _ h')
    · simp only [dictInsert, if_neg hp, List.map_cons] at h
      rcases List.mem_cons.mp h with h' | h'
      · exact Or.inl (by rw [List.map_cons, h']; exact List.mem_cons_self _ _)
      · rcases ih h' with h'' | h''
        · exact Or.inl (List.mem_cons_of_mem _ h'')
        · exact Or.inr h''

lemma nodup_keys_insert {α : Type} (l : List (String × α)) (k : String) (v : α)
    (h : (l.map Prod.fst).Nodup) : ((dictInsert l k v).map Prod.fst).Nodup := by
  induction l with
  | nil => simp [dictInsert]
  | cons p ps ih =>
    rw [List.map_cons, List.nodup_cons] at h
    by_cases hp : p.1 = k
    · subst hp
      rw [dictInsert, if_pos rfl, List.map_cons, List.nodup_cons]
      exact ⟨h.1, h.2⟩
    · rw [dictInsert, if_neg hp, List.map_cons, List.nodup_cons]
      refine ⟨?_, ih h.2⟩
      intro hc
      rcases mem_keys_insert ps k p.1 v hc with h' | h'
      · exact h.1 h'
      · exact hp h'

lemma countP_keys_zero {α : Type} (l : List (String × α)) (k : String)
    (h : k ∉ l.map Prod.fst) : l.countP (fun p => p.1 == k) = 0 := by
  induction l with
  | nil => simp
  | cons p ps ih =>
    rw [List.map_cons, List.mem_cons, not_or] at h
    rw [List.countP_cons]
    have h1 : (p.1 == k) = false := by
      simpa using fun h' => h.1 h'.symm
    simp [h1, ih h.2]

lemma countP_keys_insert {α : Type} (l : List (String × α)) (k : String) (v : α)
    (h : (l.map Prod.fst).Nodup) :
    (dictInsert l k v).countP (fun p => p.1 == k) = 1 := by
  induction l with
  | nil => simp [dictInsert]
  | cons p ps ih =>
    rw [List.map_cons, List.nodup_cons] at h
    by_cases hp : p.1 = k
    · subst hp
      rw [dictInsert, if_pos rfl, List.countP_cons]
      simp [countP_keys_zero ps p.1 h.1]
    · rw [dictInsert, if_neg hp, List.countP_cons]
      have h1 : (p.1 == k) = false := by simpa using hp
      simp [h1, ih h.2]

lemma dictLookup_isSome_of_mem {α : Type} (l : List (String × α)) (k : String)
    (h : k ∈ l.map Prod.fst) : (dictLookup l k).isSome := by
  induction l with
  | nil => simp at h
  | cons p ps ih =>
    rw [List.map_cons, List.mem_cons] at h
    rw [dictLookup_cons]
    by_cases hp : p.1 = k
    · simp [hp]
    · rcases h with h' | h'
      · exact absurd h'.symm hp
      · simpa [hp] using ih h'

lemma dictLookup_mem_of_some {α : Type} (l : List (String × α)) (k : String) (v : α)
    (h : dictLookup l k = some v) : (k, v) ∈ l := by
  induction l with
  | nil => simp [dictLookup_nil] at h
  | cons p ps ih =>
    obtain ⟨pk, pv⟩ := p
    rw [dictLookup_cons] at h
    by_cases hp : pk = k
    · rw [if_pos hp] at h
      obtain rfl := Option.some.inj h
      subst hp
      exact List.mem_cons_self _ _
    · rw [if_neg hp] at h
      exact List.mem_cons_of_mem _ (ih h)

/-! ### Lowercasing and longest-match lemmas -/

lemma lowerChar_idem (c : Char) : lowerChar (lowerChar c) = lowerChar c := by
  unfold lowerChar
  by_cases h : 65 ≤ c.toNat ∧ c.toNat ≤ 90
  · rw [if_pos h]
    have hv : (c.toNat + 32).isValidChar := by
      left
      omega
    have ht : (Char.ofNat (c.toNat + 32)).toNat = c.toNat + 32 := by
      rw [Char.ofNat, dif_pos hv]
      rfl
    rw [if_neg]
    rw [ht]
    omega
  · rw [if_neg h, if_neg h]

lemma pyLower_idem (s : String) : pyLower (pyLower s) = pyLower s := by
  simp only [pyLower, List.map_map]
  congr 1
  apply List.map_congr_left
  intro c _
  exact lowerChar_idem c

lemma runLen_self (l : List Char) : runLen l l = l.length := by
  induction l with
  | nil => rfl
  | cons c t ih => simp [runLen, ih]

lemma take_eq_of_le_runLen :
    ∀ (xs ys : List Char) (n : Nat), n ≤ runLen xs ys → xs.take n = ys.take n := by
  intro xs
  induction xs with
  | nil =>
    intro ys n h
    have : runLen [] ys = 0 := by cases ys <;> rfl
    rw [this] at h
    interval_cases n
    simp
  | cons x xs ih =>
    intro ys n h
    cases ys with
    | nil =>
      have : runLen (x :: xs) [] = 0 := rfl
      rw [this] at h
      interval_cases n
      simp
    | cons y ys =>
      cases n with
      | zero => simp
      | succ m =>
        by_cases hxy : x = y
        · rw [runLen, if_pos (by simpa using hxy)] at h
          rw [List.take_succ_cons, List.take_succ_cons, hxy, ih ys m (by omega)]
        · rw [runLen, if_neg (by simpa using hxy)] at h
          omega

lemma mem_lmCands {a b : List Char} {alo ahi blo bhi : Nat} {c : Nat × Nat × Nat}
    (h : c ∈ lmCands a b alo ahi blo bhi) :
    ∃ i j, alo ≤ i ∧ i < alo + (ahi - alo) ∧ blo ≤ j ∧ j < blo + (bhi - blo) ∧
      c = (i, j, min (runAt a b i j) (min (ahi - i) (bhi - j))) := by
  simp only [lmCands, List.mem_flatMap, List.mem_map, List.mem_range'_1] at h
  obtain ⟨i, ⟨hi1, hi2⟩, j, ⟨hj1, hj2⟩, rfl⟩ := h
  exact ⟨i, j, hi1, by omega, hj1, by omega, rfl⟩

lemma lm_foldl_mem :
    ∀ (l : List (Nat × Nat × Nat)) (a : Nat × Nat × Nat),
      l.foldl (fun best c => if best.2.2 < c.2.2 then c else best) a = a ∨
      l.foldl (fun best c => if best.2.2 < c.2.2 then c else best) a ∈ l := by
  intro l
  induction l with
  | nil => intro a; exact Or.inl rfl
  | cons c t ih =>
    intro a
    simp only [List.foldl_cons]
    rcases ih (if a.2.2 < c.2.2 then c else a) with h | h
    · rw [h]
      split
      · exact Or.inr (List.mem_cons_self _ _)
      · exact Or.inl rfl
    · exact Or.inr (List.mem_cons_of_mem _ h)

lemma lm_foldl_keep :
    ∀ (l : List (Nat × Nat × Nat)) (best : Nat × Nat × Nat),
      (∀ c ∈ l, ¬ best.2.2 < c.2.2) →
      l.foldl (fun best c => if best.2.2 < c.2.2 then c else best) best = best := by
  intro l
  induction l with
  | nil => intro best _; rfl
  | cons c t ih =>
    intro best h
    simp only [List.foldl_cons]
    rw [if_neg (h c (List.mem_cons_self _ _))]
    exact ih best (fun c' hc' => h c' (List.mem_cons_of_mem _ hc'))

lemma lm_cases (a b : List Char) (alo ahi blo bhi : Nat) :
    lm a b alo ahi blo bhi = (alo, blo, 0) ∨
    lm a b alo ahi blo bhi ∈ lmCands a b alo ahi blo bhi :=
  lm_foldl_mem _ _

lemma lm_bounds (a b : List Char) (alo ahi blo bhi : Nat)
    (h : 0 < (lm a b alo ahi blo bhi).2.2) :
    alo ≤ (lm a b alo ahi blo bhi).1 ∧
    (lm a b alo ahi blo bhi).1 + (lm a b alo ahi blo bhi).2.2 ≤ ahi ∧
    blo ≤ (lm a b alo ahi blo bhi).2.1 ∧
    (lm a b alo ahi blo bhi).2.1 + (lm a b alo ahi blo bhi).2.2 ≤ bhi ∧
    (lm a b alo ahi blo bhi).2.2 ≤
      runAt a b (lm a b alo ahi blo bhi).1 (lm a b alo ahi blo bhi).2.1 := by
  rcases lm_cases a b alo ahi blo bhi with hc | hc
  · rw [hc] at h
    simp at h
  · obtain ⟨i, j, hi1, hi2, hj1, hj2, hc'⟩ := mem_lmCands hc
    rw [hc']
    rw [hc'] at h
    simp only
    have h1 := Nat.min_le_left (runAt a b i j) (min (ahi - i) (bhi - j))
    have h2 := Nat.min_le_right (runAt a b i j) (min (ahi - i) (bhi - j))
    have h3 := Nat.min_le_left (ahi - i) (bhi - j)
    have h4 := Nat.min_le_right (ahi - i) (bhi - j)
    simp only at h
    refine ⟨hi1, by omega, hj1, by omega, h1⟩

lemma lm_foldl_k_ge_init :
    ∀ (l : List (Nat × Nat × Nat)) (a : Nat × Nat × Nat),
      a.2.2 ≤ (l.foldl (fun best c => if best.2.2 < c.2.2 then c else best) a).2.2 := by
  intro l
  induction l with
  | nil => intro a; exact le_refl _
  | cons x t ih =>
    intro a
    simp only [List.foldl_cons]
    by_cases hx : a.2.2 < x.2.2
    · rw [if_pos hx]
      exact le_trans (by omega) (ih x)
    · rw [if_neg hx]
      exact ih a

lemma lm_foldl_k_ge :
    ∀ (l : List (Nat × Nat × Nat)) (a : Nat × Nat × Nat) (c : Nat × Nat × Nat),
      c ∈ l →
      c.2.2 ≤ (l.foldl (fun best c => if best.2.2 < c.2.2 then c else best) a).2.2 := by
  intro l
  induction l with
  | nil => intro a c h; cases h
  | cons x t ih =>
    intro a c h
    simp only [List.foldl_cons]
    rcases List.mem_cons.mp h with rfl | h'
    · by_cases hx : a.2.2 < c.2.2
      · rw [if_pos hx]
        exact lm_foldl_k_ge_init t c
      · rw [if_neg hx]
        exact le_trans (by omega) (lm_foldl_k_ge_init t a)

    · exact ih _ c h'

lemma lm_k_ge (a b : List Char) (alo ahi blo bhi : Nat) (c : Nat × Nat × Nat)
    (h : c ∈ lmCands a b alo ahi blo bhi) :
    c.2.2 ≤ (lm a b alo ahi blo bhi).2.2 :=
  lm_foldl_k_ge _ _ c h

lemma lm_k_le (a b : List Char) (alo ahi blo bhi : Nat) :
    (lm a b alo ahi blo bhi).2.2 ≤ ahi - alo := by
  rcases lm_cases a b alo ahi blo bhi with hc | hc
  · rw [hc]
    simp
  · obtain ⟨i, j, hi1, hi2, hj1, hj2, hc'⟩ := mem_lmCands hc
    rw [hc']
    simp only
    have h2 := Nat.min_le_right (runAt a b i j) (min (ahi - i) (bhi - j))
    have h3 := Nat.min_le_left (ahi - i) (bhi - j)
    omega

lemma mem_lmCands_self (a : List Char) (h : 0 < a.length) :
    (0, 0, a.length) ∈ lmCands a a 0 a.length 0 a.length := by
  simp only [lmCands, List.mem_flatMap, List.mem_map, List.mem_range'_1]
  refine ⟨0, by omega, 0, by omega, ?_⟩
  have hr : runAt a a 0 0 = a.length := by
    simp [runAt, runLen_self]
  rw [hr]
  simp

lemma lm_self (a : List Char) (h : 0 < a.length) :
    lm a a 0 a.length 0 a.length = (0, 0, a.length) := by
  have hge := lm_k_ge a a 0 a.length 0 a.length _ (mem_lmCands_self a h)
  have hle := lm_k_le a a 0 a.length 0 a.length
  simp only at hge
  have hk : (lm a a 0 a.length 0 a.length).2.2 = a.length := by omega
  have hb := lm_bounds a a 0 a.length 0 a.length (by omega)
  obtain ⟨h1, h2, h3, h4, _⟩ := hb
  have hi : (lm a a 0 a.length 0 a.length).1 = 0 := by omega
  have hj : (lm a a 0 a.length 0 a.length).2.1 = 0 := by omega
  have : lm a a 0 a.length 0 a.length =
      ((lm a a 0 a.length 0 a.length).1,
       (lm a a 0 a.length 0 a.length).2.1,
       (lm a a 0 a.length 0 a.length).2.2) := rfl
  rw [this, hi, hj, hk]

lemma lm_empty_left (a b : List Char) (alo blo bhi : Nat) :
    lm a b alo alo blo bhi = (alo, blo, 0) := by
  simp [lm, lmCands]

lemma msGo_empty_left (a b : List Char) (fuel alo blo bhi : Nat) :
    msGo a b fuel alo alo blo bhi = 0 := by
  cases fuel with
  | zero => rfl
  | succ f =>
    simp [msGo, lm_empty_left]

lemma msGo_le (a b : List Char) :
    ∀ (fuel alo ahi blo bhi : Nat),
      msGo a b fuel alo ahi blo bhi ≤ min (ahi - alo) (bhi - blo) := by
  intro fuel
  induction fuel with
  | zero => intro alo ahi blo bhi; simp [msGo]
  | succ f ih =>
    intro alo ahi blo bhi
    rw [msGo]
    split
    · next hk =>
      have hb := lm_bounds a b alo ahi blo bhi hk
      obtain ⟨h1, h2, h3, h4, _⟩ := hb
      have hl := ih alo (lm a b alo ahi blo bhi).1 blo (lm a b alo ahi blo bhi).2.1
      have hr := ih ((lm a b alo ahi blo bhi).1 + (lm a b alo ahi blo bhi).2.2) ahi
        ((lm a b alo ahi blo bhi).2.1 + (lm a b alo ahi blo bhi).2.2) bhi
      omega
    · omega

lemma matchSize_le (a b : List Char) :
    matchSize a b ≤ min a.length b.length := by
  have h := msGo_le a b (a.length + b.length + 1) 0 a.length 0 b.length
  simpa [matchSize] using h

lemma matchSize_self (a : List Char) : matchSize a a = a.length := by
  unfold matchSize
  by_cases h : 0 < a.length
  · rw [msGo, lm_self a h]
    simp only
    rw [if_pos h]
    simp [msGo_empty_left]
  · have hz : a.length = 0 := by omega
    rw [hz]
    exact msGo_empty_left a a 1 0 0 0

lemma seg_split (x : List Char) (lo i k hi : Nat) (h1 : lo ≤ i) (h2 : i + k ≤ hi) :
    (x.drop lo).take (hi - lo) =
      (x.drop lo).take (i - lo) ++
        ((x.drop i).take k ++ (x.drop (i + k)).take (hi - (i + k))) := by
  rw [show hi - lo = (i - lo) + (k + (hi - (i + k))) from by omega]
  rw [List.take_add]
  congr 1
  rw [List.drop_drop]
  rw [show lo + (i - lo) = i from by omega]
  rw [List.take_add]
  congr 1
  rw [List.drop_drop]

lemma msGo_full_eq (a b : List Char) :
    ∀ (fuel alo ahi blo bhi : Nat),
      msGo a b fuel alo ahi blo bhi = ahi - alo →
      msGo a b fuel alo ahi blo bhi = bhi - blo →
      (a.drop alo).take (ahi - alo) = (b.drop blo).take (bhi - blo) := by
  intro fuel
  induction fuel with
  | zero =>
    intro alo ahi blo bhi h1 h2
    rw [msGo] at h1 h2
    rw [show ahi - alo = 0 from h1.symm, show bhi - blo = 0 from h2.symm]
    simp
  | succ f ih =>
    intro alo ahi blo bhi h1 h2
    rw [msGo] at h1 h2
    by_cases hk : 0 < (lm a b alo ahi blo bhi).2.2
    · rw [if_pos hk] at h1 h2
      have hb := lm_bounds a b alo ahi blo bhi hk
      obtain ⟨hb1, hb2, hb3, hb4, hb5⟩ := hb
      have hl := msGo_le a b f alo (lm a b alo ahi blo bhi).1 blo
        (lm a b alo ahi blo bhi).2.1
      have hr := msGo_le a b f
        ((lm a b alo ahi blo bhi).1 + (lm a b alo ahi blo bhi).2.2) ahi
        ((lm a b alo ahi blo bhi).2.1 + (lm a b alo ahi blo bhi).2.2) bhi
      have hminl1 := Nat.min_le_left ((lm a b alo ahi blo bhi).1 - alo)
        ((lm a b alo ahi blo bhi).2.1 - blo)
      have hminl2 := Nat.min_le_right ((lm a b alo ahi blo bhi).1 - alo)
        ((lm a b alo ahi blo bhi).2.1 - blo)
      have e1 : msGo a b f alo (lm a b alo ahi blo bhi).1 blo
          (lm a b alo ahi blo bhi).2.1 = (lm a b alo ahi blo bhi).1 - alo := by
        omega
      have e2 : msGo a b f alo (lm a b alo ahi blo bhi).1 blo
          (lm a b alo ahi blo bhi).2.1 = (lm a b alo ahi blo bhi).2.1 - blo := by
        omega
      have e3 : msGo a b f
          ((lm a b alo ahi blo bhi).1 + (lm a b alo ahi blo bhi).2.2) ahi
          ((lm a b alo ahi blo bhi).2.1 + (lm a b alo ahi blo bhi).2.2) bhi =
          ahi - ((lm a b alo ahi blo bhi).1 + (lm a b alo ahi blo bhi).2.2) := by
        omega
      have e4 : msGo a b f
          ((lm a b alo ahi blo bhi).1 + (lm a b alo ahi blo bhi).2.2) ahi
          ((lm a b alo ahi blo bhi).2.1 + (lm a b alo ahi blo bhi).2.2) bhi =
          bhi - ((lm a b alo ahi blo bhi).2.1 + (lm a b alo ahi blo bhi).2.2) := by
        omega
      have ihl := ih alo (lm a b alo ahi blo bhi).1 blo
        (lm a b alo ahi blo bhi).2.1 e1 e2
      have ihr := ih ((lm a b alo ahi blo bhi).1 + (lm a b alo ahi blo bhi).2.2)
        ahi ((lm a b alo ahi blo bhi).2.1 + (lm a b alo ahi blo bhi).2.2) bhi e3 e4
      have hm : (a.drop (lm a b alo ahi blo bhi).1).take (lm a b alo ahi blo bhi).2.2 =
          (b.drop (lm a b alo ahi blo bhi).2.1).take (lm a b alo ahi blo bhi).2.2 := by
        apply take_eq_of_le_runLen
        simpa [runAt] using hb5
      rw [seg_split a alo (lm a b alo ahi blo bhi).1 (lm a b alo ahi blo bhi).2.2 ahi
        hb1 hb2]
      rw [seg_split b blo (lm a b alo ahi blo bhi).2.1 (lm a b alo ahi blo bhi).2.2 bhi
        hb3 hb4]
      rw [ihl, hm, ihr]
    · rw [if_neg hk] at h1 h2
      rw [show ahi - alo = 0 from h1.symm, show bhi - blo = 0 from h2.symm]
      simp

lemma matchSize_full (a b : List Char) (h1 : matchSize a b = a.length)
    (h2 : matchSize a b = b.length) : a = b := by
  have h := msGo_full_eq a b (a.length + b.length + 1) 0 a.length 0 b.length
    (by simpa [matchSize] using h1) (by simpa [matchSize] using h2)
  simpa using h

/-- Sanity check for the fuel-based model: any fuel strictly above the window
measure computes the same matched size, so the initial fuel of `matchSize` is
never exhausted. -/
lemma msGo_fuel_irrelevant (a b : List Char) :
    ∀ (f g alo ahi blo bhi : Nat),
      (ahi - alo) + (bhi - blo) < f → (ahi - alo) + (bhi - blo) < g →
      msGo a b f alo ahi blo bhi = msGo a b g alo ahi blo bhi := by
  intro f
  induction f with
  | zero => intro g alo ahi blo bhi h1 h2; omega
  | succ f ih =>
    intro g alo ahi blo bhi h1 h2
    cases g with
    | zero => omega
    | succ g' =>
      rw [msGo, msGo]
      by_cases hk : 0 < (lm a b alo ahi blo bhi).2.2
      · rw [if_pos hk, if_pos hk]
        have hb := lm_bounds a b alo ahi blo bhi hk
        obtain ⟨hb1, hb2, hb3, hb4, _⟩ := hb
        rw [ih g' alo (lm a b alo ahi blo bhi).1 blo (lm a b alo ahi blo bhi).2.1
          (by omega) (by omega)]
        rw [ih g' ((lm a b alo ahi blo bhi).1 + (lm a b alo ahi blo bhi).2.2) ahi
          ((lm a b alo ahi blo bhi).2.1 + (lm a b alo ahi blo bhi).2.2) bhi
          (by omega) (by omega)]
      · rw [if_neg hk, if_neg hk]

lemma ratioQ_le_one (a b : String) : ratioQ a b ≤ 1 := by
  unfold ratioQ
  by_cases h : a.data.length + b.data.length = 0
  · rw [if_pos h]
  · rw [if_neg h]
    have hpos : (0 : Rat) < (a.data.length : Rat) + (b.data.length : Rat) := by
      have h' : 0 < a.data.length + b.data.length := Nat.pos_of_ne_zero h
      exact_mod_cast h'
    rw [div_le_one hpos]
    have hM := matchSize_le a.data b.data
    have hM1 : matchSize a.data b.data ≤ a.data.length :=
      le_trans hM (Nat.min_le_left _ _)
    have hM2 : matchSize a.data b.data ≤ b.data.length :=
      le_trans hM (Nat.min_le_right _ _)
    have h2 : 2 * matchSize a.data b.data ≤ a.data.length + b.data.length := by
      omega
    exact_mod_cast h2

lemma ratioQ_self (a : String) : ratioQ a a = 1 := by
  unfold ratioQ
  by_cases h : a.data.length + a.data.length = 0
  · rw [if_pos h]
  · rw [if_neg h, matchSize_self]
    have hne : (a.data.length : Rat) + (a.data.length : Rat) ≠ 0 := by
      have h' : 0 < a.data.length + a.data.length := Nat.pos_of_ne_zero h
      have h'' : (0 : Rat) < (a.data.length : Rat) + (a.data.length : Rat) := by
        exact_mod_cast h'
      exact ne_of_gt h''
    rw [div_eq_one_iff_eq hne]
    ring

lemma ratioQ_eq_one (a b : String) (h : ratioQ a b = 1) : a = b := by
  unfold ratioQ at h
  by_cases h0 : a.data.length + b.data.length = 0
  · have ha : a.data = [] := by
      rw [← List.length_eq_zero]
      omega
    have hb : b.data = [] := by
      rw [← List.length_eq_zero]
      omega
    cases a
    cases b
    simp at ha hb
    rw [ha, hb]
  · rw [if_neg h0] at h
    have hne : (a.data.length : Rat) + (b.data.length : Rat) ≠ 0 := by
      have h' : 0 < a.data.length + b.data.length := Nat.pos_of_ne_zero h0
      have h'' : (0 : Rat) < (a.data.length : Rat) + (b.data.length : Rat) := by
        exact_mod_cast h'
      exact ne_of_gt h''
    rw [div_eq_one_iff_eq hne] at h
    have hN : 2 * matchSize a.data b.data = a.data.length + b.data.length := by
      exact_mod_cast h
    have hM := matchSize_le a.data b.data
    have hM1 : matchSize a.data b.data ≤ a.data.length :=
      le_trans hM (Nat.min_le_left _ _)
    have hM2 : matchSize a.data b.data ≤ b.data.length :=
      le_trans hM (Nat.min_le_right _ _)
    have e1 : matchSize a.data b.data = a.data.length := by omega
    have e2 : matchSize a.data b.data = b.data.length := by omega
    have hd := matchSize_full a.data b.data e1 e2
    cases a
    cases b
    exact congrArg String.mk (by simpa using hd)

/-! ### Lemmas about the fuzzy-match scan -/

lemma scanStep_skip (word x : String) (acc : Option (Rat × String))
    (hc : ¬ ((3 : Rat)/5 ≤ ratioQ x word)) : scanStep word acc x = acc := by
  unfold scanStep
  rw [if_neg hc]

lemma scanStep_none (word x : String) (hc : (3 : Rat)/5 ≤ ratioQ x word) :
    scanStep word none x = some (ratioQ x word, x) := by
  unfold scanStep
  rw [if_pos hc]

lemma scanStep_some (word x : String) (q0 : Rat × String)
    (hc : (3 : Rat)/5 ≤ ratioQ x word) :
    scanStep word (some q0) x =
      if q0.1 < ratioQ x word ∨ (q0.1 = ratioQ x word ∧ q0.2 < x) then
        some (ratioQ x word, x)
      else some q0 := by
  unfold scanStep
  rw [if_pos hc]

lemma scan_inv (word : String) :
    ∀ (l : List String) (acc : Option (Rat × String)),
      (l.foldl (scanStep word) acc = none →
        acc = none ∧ ∀ x ∈ l, ¬ ((3 : Rat)/5 ≤ ratioQ x word)) ∧
      (∀ p, l.foldl (scanStep word) acc = some p →
        (acc = some p ∨ (p.2 ∈ l ∧ p.1 = ratioQ p.2 word ∧ (3 : Rat)/5 ≤ p.1)) ∧
        (∀ x ∈ l, (3 : Rat)/5 ≤ ratioQ x word → ratioQ x word ≤ p.1) ∧
        (∀ q, acc = some q → q.1 ≤ p.1)) := by
  intro l
  induction l with
  | nil =>
    intro acc
    constructor
    · intro h
      exact ⟨h, by simp⟩
    · intro p h
      refine ⟨Or.inl h, by simp, ?_⟩
      intro q hq
      rw [hq] at h
      obtain rfl := Option.some.inj h
      exact le_refl _
  | cons x t ih =>
    intro acc
    constructor
    · intro h
      rw [List.foldl_cons] at h
      obtain ⟨hacc', hall⟩ := (ih (scanStep word acc x)).1 h
      by_cases hc : (3 : Rat)/5 ≤ ratioQ x word
      · exfalso
        cases hacc0 : acc with
        | none =>
          rw [hacc0, scanStep_none word x hc] at hacc'
          simp at hacc'
        | some q0 =>
          rw [hacc0, scanStep_some word x q0 hc] at hacc'
          by_cases hrepl : q0.1 < ratioQ x word ∨ (q0.1 = ratioQ x word ∧ q0.2 < x)
          · rw [if_pos hrepl] at hacc'
            simp at hacc'
          · rw [if_neg hrepl] at hacc'
            simp at hacc'
      · rw [scanStep_skip word x acc hc] at hacc'
        refine ⟨hacc', ?_⟩
        intro y hy
        rcases List.mem_cons.mp hy with rfl | hy'
        · exact hc
        · exact hall y hy'
    · intro p h
      rw [List.foldl_cons] at h
      obtain ⟨hdisj, hmax, hmono⟩ := (ih (scanStep word acc x)).2 p h
      by_cases hc : (3 : Rat)/5 ≤ ratioQ x word
      · cases hacc0 : acc with
        | none =>
          rw [hacc0, scanStep_none word x hc] at hdisj hmono
          have hx_le : ratioQ x word ≤ p.1 := by
            simpa using hmono (ratioQ x word, x) rfl
          refine ⟨?_, ?_, ?_⟩
          · rcases hdisj with heq | hin
            · obtain rfl := Option.some.inj heq
              exact Or.inr ⟨List.mem_cons_self _ _, rfl, hc⟩
            · exact Or.inr ⟨List.mem_cons_of_mem _ hin.1, hin.2⟩
          · intro y hy hcy
            rcases List.mem_cons.mp hy with rfl | hy'
            · exact hx_le
            · exact hmax y hy' hcy
          · intro q hq
            simp at hq
        | some q0 =>
          rw [hacc0, scanStep_some word x q0 hc] at hdisj hmono
          by_cases hrepl : q0.1 < ratioQ x word ∨ (q0.1 = ratioQ x word ∧ q0.2 < x)
          · rw [if_pos hrepl] at hdisj hmono
            have hx_le : ratioQ x word ≤ p.1 := by
              simpa using hmono (ratioQ x word, x) rfl
            refine ⟨?_, ?_, ?_⟩
            · rcases hdisj with heq | hin
              · obtain rfl := Option.some.inj heq
                exact Or.inr ⟨List.mem_cons_self _ _, rfl, hc⟩
              · exact Or.inr ⟨List.mem_cons_of_mem _ hin.1, hin.2⟩
            · intro y hy hcy
              rcases List.mem_cons.mp hy with rfl | hy'
              · exact hx_le
              · exact hmax y hy' hcy
            · intro q hq
              obtain rfl := Option.some.inj hq
              have hq_le : q0.1 ≤ ratioQ x word := by
                rcases hrepl with h' | h'
                · exact le_of_lt h'
                · exact le_of_eq h'.1
              exact le_trans hq_le hx_le
          · rw [if_neg hrepl] at hdisj hmono
            have hq0_le : q0.1 ≤ p.1 := hmono q0 rfl
            refine ⟨?_, ?_, ?_⟩
            · rcases hdisj with heq | hin
              · exact Or.inl heq
              · exact Or.inr ⟨List.mem_cons_of_mem _ hin.1, hin.2⟩
            · intro y hy hcy
              rcases List.mem_cons.mp hy with rfl | hy'
              · push_neg at hrepl
                exact le_trans hrepl.1 hq0_le
              · exact hmax y hy' hcy
            · intro q hq
              obtain rfl := Option.some.inj hq
              exact hq0_le
      · rw [scanStep_skip word x acc hc] at hdisj hmono
        refine ⟨?_, ?_, hmono⟩
        · rcases hdisj with heq | hin
          · exact Or.inl heq
          · exact Or.inr ⟨List.mem_cons_of_mem _ hin.1, hin.2⟩
        · intro y hy hcy
          rcases List.mem_cons.mp hy with rfl | hy'
          · exact absurd hcy hc
          · exact hmax y hy' hcy

lemma foldl_scan_none (word : String) (l : List String)
    (h : ∀ x ∈ l, ¬ ((3 : Rat)/5 ≤ ratioQ x word)) :
    l.foldl (scanStep word) none = none := by
  induction l with
  | nil => rfl
  | cons x t ih =>
    rw [List.foldl_cons, scanStep_skip word x none (h x (List.mem_cons_self _ _))]
    exact ih (fun y hy => h y (List.mem_cons_of_mem _ hy))

lemma gcm_none_iff (word : String) (poss : List String) :
    getCloseMatch word poss = none ↔
      ∀ x ∈ poss, ¬ ((3 : Rat)/5 ≤ ratioQ x word) := by
  constructor
  · intro h
    unfold getCloseMatch at h
    have hf : poss.foldl (scanStep word) none = none := by
      cases hf : poss.foldl (scanStep word) none with
      | none => rfl
      | some p => rw [hf] at h; simp at h
    exact ((scan_inv word poss none).1 hf).2
  · intro h
    unfold getCloseMatch
    rw [foldl_scan_none word poss h]
    rfl

lemma gcm_some_spec (word : String) (poss : List String) (x : String)
    (h : getCloseMatch word poss = some x) :
    x ∈ poss ∧ (3 : Rat)/5 ≤ ratioQ x word ∧
      ∀ y ∈ poss, ratioQ y word ≤ ratioQ x word := by
  unfold getCloseMatch at h
  obtain ⟨p, hp, hpx⟩ := Option.map_eq_some'.mp h
  obtain ⟨hdisj, hmax, _⟩ := (scan_inv word poss none).2 p hp
  rcases hdisj with h' | ⟨hm, hr, hcut⟩
  · cases h'
  · subst hpx
    rw [hr] at hcut
    refine ⟨hm, hcut, ?_⟩
    intro y hy
    by_cases hcy : (3 : Rat)/5 ≤ ratioQ y word
    · rw [← hr]
      exact hmax y hy hcy
    · exact le_trans (le_of_lt (lt_of_not_ge hcy)) hcut

lemma gcm_isSome_iff (word : String) (poss : List String) :
    (getCloseMatch word poss).isSome ↔
      ∃ x ∈ poss, (3 : Rat)/5 ≤ ratioQ x word := by
  constructor
  · intro h
    obtain ⟨x, hx⟩ := Option.isSome_iff_exists.mp h
    obtain ⟨hm, hc, _⟩ := gcm_some_spec word poss x hx
    exact ⟨x, hm, hc⟩
  · rintro ⟨x, hx, hc⟩
    cases hg : getCloseMatch word poss with
    | some m => simp
    | none => exact absurd hc ((gcm_none_iff word poss).mp hg x hx)

lemma gcm_self (word : String) (poss : List String) (h : word ∈ poss) :
    getCloseMatch word poss = some word := by
  have hs : (getCloseMatch word poss).isSome := by
    refine (gcm_isSome_iff word poss).mpr ⟨word, h, ?_⟩
    rw [ratioQ_self]
    norm_num
  obtain ⟨x, hx⟩ := Option.isSome_iff_exists.mp hs
  obtain ⟨hmem, hcut, hmax⟩ := gcm_some_spec word poss x hx
  have h1 : ratioQ word word ≤ ratioQ x word := hmax word h
  rw [ratioQ_self] at h1
  have h2 : ratioQ x word ≤ 1 := ratioQ_le_one x word
  have hx1 : ratioQ x word = 1 := le_antisymm h2 h1
  rw [hx, ratioQ_eq_one x word hx1]

lemma ga_exact (qa : List (String × String)) (q : String)
    (h : q ∈ qa.map Prod.fst) :
    get_answer_from_dataset qa q = dictLookup qa q := by
  unfold get_answer_from_dataset
  rw [gcm_self q (qa.map Prod.fst) h]

lemma ga_isSome_iff (qa : List (String × String)) (q : String) :
    (get_answer_from_dataset qa q).isSome ↔
      ∃ x ∈ qa.map Prod.fst, (3 : Rat)/5 ≤ ratioQ x q := by
  unfold get_answer_from_dataset
  constructor
  · intro h
    cases hg : getCloseMatch q (qa.map Prod.fst) with
    | none => rw [hg] at h; simp at h
    | some m =>
      obtain ⟨hm, hc, _⟩ := gcm_some_spec q (qa.map Prod.fst) m hg
      exact ⟨m, hm, hc⟩
  · rintro ⟨x, hx, hc⟩
    have hs := (gcm_isSome_iff q (qa.map Prod.fst)).mpr ⟨x, hx, hc⟩
    obtain ⟨m, hm⟩ := Option.isSome_iff_exists.mp hs
    rw [hm]
    obtain ⟨hmm, _, _⟩ := gcm_some_spec q (qa.map Prod.fst) m hm
    exact dictLookup_isSome_of_mem qa m hmm

lemma ratioQ_with_empty (x : String) (hx : x ≠ "") : ratioQ x "" = 0 := by
  have hd : x.data ≠ [] := by
    intro h'
    apply hx
    cases x
    simpa using congrArg String.mk h'
  have hlen : 0 < x.data.length := List.length_pos.mpr hd
  have hemp : ("" : String).data.length = 0 := rfl
  unfold ratioQ
  have h0 : x.data.length + ("" : String).data.length ≠ 0 := by
    omega
  rw [if_neg h0]
  have hM := matchSize_le x.data ("" : String).data
  have hM0 : matchSize x.data ("" : String).data = 0 := by
    have h2 := le_trans hM (Nat.min_le_right _ _)
    omega
  rw [hM0]
  norm_num

lemma ga_empty_query (qa : List (String × String))
    (h : ("" : String) ∉ qa.map Prod.fst) :
    get_answer_from_dataset qa "" = none := by
  unfold get_answer_from_dataset
  rw [(gcm_none_iff "" (qa.map Prod.fst)).mpr ?_]
  · intro x hx hcut
    have hxne : x ≠ "" := by
      intro h'
      exact h (h' ▸ hx)
    rw [ratioQ_with_empty x hxne] at hcut
    norm_num at hcut

/-! ### Classifier and handler lemmas -/

lemma domainScores_keys (q : String) :
    (domainScores q).map Prod.fst =
      ["Admission", "Scholarship", "Student Affairs", "Academics", "Migration"] := rfl

lemma maxScore_attained (q : String) (h : 0 < maxScore q) :
    ∃ p ∈ domainScores q, p.2 = maxScore q := by
  rcases listMax_zero_or_mem ((domainScores q).map Prod.snd) with h0 | hm
  · unfold maxScore at h
    omega
  · obtain ⟨p, hp, hp2⟩ := List.mem_map.mp hm
    exact ⟨p, hp, hp2⟩

lemma classify_pos (q : String) (h : 0 < maxScore q) :
    ∃ p, (domainScores q).find? (fun x => x.2 == maxScore q) = some p ∧
      classify_query q = (p.1, labelsGet p.1) := by
  have hex : ∃ x ∈ domainScores q, (fun x => x.2 == maxScore q) x = true := by
    obtain ⟨p, hp, hp2⟩ := maxScore_attained q h
    exact ⟨p, hp, by simpa using hp2⟩
  have hs : ((domainScores q).find? (fun x => x.2 == maxScore q)).isSome :=
    List.find?_isSome.mpr hex
  obtain ⟨p, hp⟩ := Option.isSome_iff_exists.mp hs
  refine ⟨p, hp, ?_⟩
  simp only [classify_query]
  rw [if_pos h, hp]

lemma classify_zero (q : String) (h : maxScore q = 0) :
    classify_query q = ("Student Affairs", "Sir Sibtual Hassan") := by
  simp only [classify_query]
  rw [if_neg (by omega)]
  rfl

lemma classify_teacher_ne_empty (q : String) : (classify_query q).2 ≠ "" := by
  by_cases h : 0 < maxScore q
  · obtain ⟨p, hp, hcq⟩ := classify_pos q h
    rw [hcq]
    have hmem : p ∈ domainScores q := List.mem_of_find?_eq_some hp
    have hkey : p.1 ∈ (domainScores q).map Prod.fst := List.mem_map_of_mem _ hmem
    rw [domainScores_keys] at hkey
    show labelsGet p.1 ≠ ""
    simp only [List.mem_cons, List.not_mem_nil, or_false] at hkey
    rcases hkey with h' | h' | h' | h' | h' <;> rw [h'] <;> decide
  · have h0 : maxScore q = 0 := by omega
    rw [classify_zero q h0]
    decide

lemma home_post_common (st : AppState) (raw v : String)
    (h : dictLookup common_responses (pyLower (pyStrip raw)) = some v) :
    home_post st raw = ({ st with botResponse := v }, HomeResult.page v) := by
  simp only [home_post]
  rw [h]

lemma home_post_fuzzy (st : AppState) (raw a : String)
    (h1 : dictLookup common_responses (pyLower (pyStrip raw)) = none)
    (h2 : get_answer_from_dataset st.qa (pyLower (pyStrip raw)) = some a) :
    home_post st raw = ({ st with botResponse := a }, HomeResult.page a) := by
  simp only [home_post]
  rw [h1, h2]

lemma home_post_miss (st : AppState) (raw : String)
    (h1 : dictLookup common_responses (pyLower (pyStrip raw)) = none)
    (h2 : get_answer_from_dataset st.qa (pyLower (pyStrip raw)) = none) :
    home_post st raw =
      ({ st with
          pending := some (pyLower (pyStrip raw),
            (classify_query (pyLower (pyStrip raw))).2),
          unread := dictInsert st.unread (classify_query (pyLower (pyStrip raw))).2
            (dictGetD st.unread (classify_query (pyLower (pyStrip raw))).2 0 + 1),
          fileUnread := dictInsert st.unread (classify_query (pyLower (pyStrip raw))).2
            (dictGetD st.unread (classify_query (pyLower (pyStrip raw))).2 0 + 1) },
       HomeResult.redirectTeacher) := by
  simp only [home_post]
  rw [h1, h2]

lemma teacher_input_nopending (st : AppState) (r : String) (h : st.pending = none) :
    teacher_input_post st r = st := by
  simp only [teacher_input_post]
  rw [h]

lemma teacher_input_apply (st : AppState) (r qq tt : String)
    (hp : st.pending = some (qq, tt)) (hr : pyStrip r ≠ "") (ht : tt ≠ "")
    (hq : qq ≠ "") :
    teacher_input_post st r =
      { st with sheet1 := st.sheet1 ++ [(qq, pyStrip r)],
                qa := dictInsert st.qa qq (pyStrip r),
                unread := dictInsert st.unread tt 0,
                fileUnread := dictInsert st.unread tt 0,
                pending := none,
                botResponse := pyStrip r } := by
  simp only [teacher_input_post, corpus_append]
  rw [hp]
  split
  · next question teacher heq =>
    have h12 := Option.some.inj heq
    rw [Prod.mk.injEq] at h12
    obtain ⟨rfl, rfl⟩ := h12
    rw [if_pos ⟨hr, ht, hq⟩]
  · next heq => exact absurd heq (by simp)

lemma teacher_input_skip (st : AppState) (r qq tt : String)
    (hp : st.pending = some (qq, tt))
    (hcond : ¬ (pyStrip r ≠ "" ∧ tt ≠ "" ∧ qq ≠ "")) :
    teacher_input_post st r = st := by
  simp only [teacher_input_post]
  rw [hp]
  split
  · next question teacher heq =>
    have h12 := Option.some.inj heq
    rw [Prod.mk.injEq] at h12
    obtain ⟨rfl, rfl⟩ := h12
    rw [if_neg hcond]
  · next heq => exact absurd heq (by simp)

lemma dictFold_keys :
    ∀ (l : List (String × String)) (acc : List (String × String)) (k : String),
      k ∈ (l.foldl (fun d p => dictInsert d p.1 p.2) acc).map Prod.fst →
      k ∈ acc.map Prod.fst ∨ ∃ a, (k, a) ∈ l := by
  intro l
  induction l with
  | nil => intro acc k h; exact Or.inl h
  | cons p t ih =>
    intro acc k h
    rw [List.foldl_cons] at h
    rcases ih (dictInsert acc p.1 p.2) k h with h' | ⟨a, ha⟩
    · rcases mem_keys_insert acc p.1 k p.2 h' with h'' | h''
      · exact Or.inl h''
      · right
        refine ⟨p.2, ?_⟩
        rw [h'']
        exact List.mem_cons_self _ _
    · exact Or.inr ⟨a, List.mem_cons_of_mem _ ha⟩

lemma loadQa_keys :
    ∀ (rs : List (List (String × String))) (acc : List (String × String)) (k : String),
      k ∈ (rs.foldl
            (fun acc rows =>
              (rows.filter (fun p => pyStrip p.1 ≠ "")).foldl
                (fun d p => dictInsert d p.1 p.2) acc)
            acc).map Prod.fst →
      k ∈ acc.map Prod.fst ∨ ∃ rows ∈ rs, ∃ a, (k, a) ∈ rows ∧ pyStrip k ≠ "" := by
  intro rs
  induction rs with
  | nil => intro acc k h; exact Or.inl h
  | cons rows t ih =>
    intro acc k h
    rw [List.foldl_cons] at h
    rcases ih _ k h with h' | ⟨rows', hrows', a, ha, hk⟩
    · rcases dictFold_keys _ acc k h' with h'' | ⟨a, ha⟩
      · exact Or.inl h''
      · right
        have hmem := List.mem_filter.mp ha
        refine ⟨rows, List.mem_cons_self _ _, a, hmem.1, by simpa using hmem.2⟩
    · exact Or.inr ⟨rows', List.mem_cons_of_mem _ hrows', a, ha, hk⟩

/-! ### Claim theorems -/

/-- Claim C1, counterexample: `classify_query` does not score by substring
occurrences.  On the query `"admission admission scholarship grant"` the
occurrence-scored classifier of the claim ties Admission (2 occurrences) with
Scholarship (2 occurrences) and selects Admission, while the code counts each
keyword at most once (Admission 1, Scholarship 2) and selects Scholarship. -/
theorem C1_counterexample :
    classify_query "admission admission scholarship grant" =
      ("Scholarship", "Dr Naeem") ∧
    classify_query_occ "admission admission scholarship grant" =
      ("Admission", "Dr Gohar") ∧
    classify_query "admission admission scholarship grant" ≠
      classify_query_occ "admission admission scholarship grant" := by
  refine ⟨by decide, by decide, by decide⟩

/-- Claim C1 (amended): for every query, `classify_query` assigns each domain
a score equal to the number of that domain's keywords occurring at least once
as a substring of the lowercased query -- each keyword contributes at most 1,
regardless of how often it occurs -- and selects the best domain by these
distinct-keyword counts. -/
theorem C1_distinct_keyword_scoring (q : String) :
    classify_query q = classify_query_distinct q := by
  have hscores : domainScores q = domainDistinctScores q := by
    unfold domainScores domainDistinctScores
    apply List.map_congr_left
    intro p _
    rw [domainCount_eq_countP]
  simp only [classify_query, classify_query_distinct, maxScore]
  rw [hscores]

/-- Claim C2, counterexample: a query that is blank after trimming is not
rejected by the query endpoint; it is classified (fallback Student Affairs)
and the assigned responder's unread count is incremented, so state is
mutated. -/
theorem C2_counterexample :
    pyStrip "   " = "" ∧
    (home_post ⟨[], [], [("Sir Sibtual Hassan", 0)], [("Sir Sibtual Hassan", 0)],
        none, ""⟩ "   ").1.unread ≠ [("Sir Sibtual Hassan", 0)] ∧
    (home_post ⟨[], [], [("Sir Sibtual Hassan", 0)], [("Sir Sibtual Hassan", 0)],
        none, ""⟩ "   ").1.unread = [("Sir Sibtual Hassan", 1)] := by
  refine ⟨by decide, by decide, by decide⟩

/-- Claim C2 (amended): an empty-after-trimming response text submitted to the
answer operation is a no-op -- no state is mutated at all; a blank query,
however, is not treated as invalid input: provided the corpus has no empty
question key, it is routed through classification to the fallback responder
Sir Sibtual Hassan, whose unread count is incremented and persisted, and it
becomes the session's pending question. -/
theorem C2_empty_inputs :
    (∀ (st : AppState) (raw : String), pyStrip raw = "" →
      teacher_input_post st raw = st) ∧
    (∀ (st : AppState) (raw : String), pyStrip raw = "" →
      ("" : String) ∉ st.qa.map Prod.fst →
      (home_post st raw).1.pending = some ("", "Sir Sibtual Hassan") ∧
      (home_post st raw).1.unread = dictInsert st.unread "Sir Sibtual Hassan"
        (dictGetD st.unread "Sir Sibtual Hassan" 0 + 1) ∧
      (home_post st raw).1.fileUnread = (home_post st raw).1.unread ∧
      (home_post st raw).1.qa = st.qa) := by
  constructor
  · intro st raw h
    cases hp : st.pending with
    | none => exact teacher_input_nopending st raw hp
    | some pr =>
      refine teacher_input_skip st raw pr.1 pr.2 (by rw [hp]) ?_
      intro hcon
      exact hcon.1 h
  · intro st raw h hq
    have hq0 : pyLower (pyStrip raw) = "" := by rw [h]; rfl
    have hc : dictLookup common_responses (pyLower (pyStrip raw)) = none := by
      rw [hq0]; decide
    have hg : get_answer_from_dataset st.qa (pyLower (pyStrip raw)) = none := by
      rw [hq0]; exact ga_empty_query st.qa hq
    have hcl : classify_query (pyLower (pyStrip raw)) =
        ("Student Affairs", "Sir Sibtual Hassan") := by
      rw [hq0]; decide
    rw [home_post_miss st raw hc hg, hcl, hq0]
    exact ⟨rfl, rfl, rfl, rfl⟩

/-- Witness for C2 (amended) at concrete inputs: an all-blank response leaves
the empty state unchanged, and a blank query becomes the pending question of
the fallback responder. -/
theorem C2_witness :
    teacher_input_post ⟨[], [], [], [], none, ""⟩ " " = ⟨[], [], [], [], none, ""⟩ ∧
    (home_post ⟨[], [], [], [], none, ""⟩ "").1.pending =
      some ("", "Sir Sibtual Hassan") :=
  ⟨C2_empty_inputs.1 ⟨[], [], [], [], none, ""⟩ " " (by decide),
   (C2_empty_inputs.2 ⟨[], [], [], [], none, ""⟩ "" (by decide) (by decide)).1⟩

/-- Claim C3, counterexample: the round trip fails for the blank query `""`,
which misses both the fixed-response set and the fuzzy matcher: after
`submit_unmatched("")` the answer operation refuses to apply (the pending
question is falsy in the Python truthiness test), so the fuzzy lookup still
misses and the responder's unread count stays at 1, not 0. -/
theorem C3_counterexample :
    dictLookup common_responses "" = none ∧
    get_answer_from_dataset ([] : List (String × String)) "" = none ∧
    get_answer_from_dataset
      (teacher_input_post (home_post ⟨[], [], [], [], none, ""⟩ "").1
        "An answer").qa "" = none ∧
    dictGetD (teacher_input_post (home_post ⟨[], [], [], [], none, ""⟩ "").1
        "An answer").unread "Sir Sibtual Hassan" 0 = 1 := by
  refine ⟨by decide, by decide, by decide, by decide⟩

/-- Claim C3 (amended): for every query whose normalised form is non-blank and
misses both the fixed-response set and the fuzzy matcher, and every response
whose trimmed text `r` is nonempty, submitting the query and then answering
the resulting pending question with `r` makes a subsequent fuzzy lookup of
the query return `r`, and resets the assigned responder's unread count
to 0. -/
theorem C3_round_trip (st : AppState) (raw r : String)
    (h1 : dictLookup common_responses (pyLower (pyStrip raw)) = none)
    (h2 : get_answer_from_dataset st.qa (pyLower (pyStrip raw)) = none)
    (h3 : pyLower (pyStrip raw) ≠ "")
    (h4 : pyStrip r = r) (h5 : r ≠ "") :
    get_answer_from_dataset (teacher_input_post (home_post st raw).1 r).qa
        (pyLower (pyStrip raw)) = some r ∧
    dictGetD (teacher_input_post (home_post st raw).1 r).unread
        ((classify_query (pyLower (pyStrip raw))).2) 0 = 0 := by
  rw [home_post_miss st raw h1 h2]
  rw [teacher_input_apply _ r (pyLower (pyStrip raw))
    ((classify_query (pyLower (pyStrip raw))).2) rfl
    (by rw [h4]; exact h5) (classify_teacher_ne_empty _) h3]
  constructor
  · rw [ga_exact _ _ (mem_keys_insert_self _ _ _), dictLookup_insert_self, h4]
  · rw [dictGetD, dictLookup_insert_self]
    rfl

/-- Witness for C3 (amended) at a concrete unmatched query and response. -/
theorem C3_witness :
    get_answer_from_dataset
      (teacher_input_post (home_post ⟨[], [], [], [], none, ""⟩ "Parking").1
        "Lot B").qa (pyLower (pyStrip "Parking")) = some "Lot B" ∧
    dictGetD (teacher_input_post (home_post ⟨[], [], [], [], none, ""⟩ "Parking").1
        "Lot B").unread ((classify_query (pyLower (pyStrip "Parking"))).2) 0 = 0 :=
  C3_round_trip ⟨[], [], [], [], none, ""⟩ "Parking" "Lot B"
    (by decide) (by decide) (by decide) (by decide) (by decide)

/-- Claim C4, counterexample: appending the same `(q, a)` twice does leave a
single in-memory entry, but the persisted `Sheet1` partition receives one new
row per call and therefore holds two identical rows for `q`, contradicting
the claimed absence of duplicates in the persisted tabular partition. -/
theorem C4_counterexample :
    (corpus_append (corpus_append [] [] "q1" "a1").1
        (corpus_append [] [] "q1" "a1").2 "q1" "a1").1 =
      [("q1", "a1"), ("q1", "a1")] ∧
    (corpus_append (corpus_append [] [] "q1" "a1").1
        (corpus_append [] [] "q1" "a1").2 "q1" "a1").1.countP
        (fun p => p.1 == "q1") ≠ 1 ∧
    (corpus_append (corpus_append [] [] "q1" "a1").1
        (corpus_append [] [] "q1" "a1").2 "q1" "a1").2 = [("q1", "a1")] := by
  refine ⟨by decide, by decide, by decide⟩

/-- Claim C4 (amended): appending `(q, a)` twice leaves the in-memory corpus
mapping with exactly one entry for `q`, mapped to `a` (overwrite semantics),
but the persisted `Sheet1` partition grows by one `(q, a)` row per call, so
after two calls it holds two duplicate rows for `q`. -/
theorem C4_append_twice (sheet1 qa : List (String × String)) (q a : String)
    (h : (qa.map Prod.fst).Nodup) :
    dictLookup (corpus_append (corpus_append sheet1 qa q a).1
      (corpus_append sheet1 qa q a).2 q a).2 q = some a ∧
    (corpus_append (corpus_append sheet1 qa q a).1
      (corpus_append sheet1 qa q a).2 q a).2.countP (fun p => p.1 == q) = 1 ∧
    ((corpus_append (corpus_append sheet1 qa q a).1
      (corpus_append sheet1 qa q a).2 q a).2.map Prod.fst).Nodup ∧
    (corpus_append (corpus_append sheet1 qa q a).1
      (corpus_append sheet1 qa q a).2 q a).1 = sheet1 ++ [(q, a), (q, a)] := by
  simp only [corpus_append]
  refine ⟨dictLookup_insert_self _ _ _, ?_, ?_, by simp⟩
  · exact countP_keys_insert _ q a (nodup_keys_insert qa q a h)
  · exact nodup_keys_insert _ q a (nodup_keys_insert qa q a h)

/-- Witness for C4 (amended) on the empty corpus. -/
theorem C4_witness :
    dictLookup (corpus_append (corpus_append [] [] "q" "a").1
      (corpus_append [] [] "q" "a").2 "q" "a").2 "q" = some "a" ∧
    (corpus_append (corpus_append [] [] "q" "a").1
      (corpus_append [] [] "q" "a").2 "q" "a").2.countP (fun p => p.1 == "q") = 1 ∧
    ((corpus_append (corpus_append [] [] "q" "a").1
      (corpus_append [] [] "q" "a").2 "q" "a").2.map Prod.fst).Nodup ∧
    (corpus_append (corpus_append [] [] "q" "a").1
      (corpus_append [] [] "q" "a").2 "q" "a").1 = [] ++ [("q", "a"), ("q", "a")] :=
  C4_append_twice [] [] "q" "a" (by decide)

/-- Claim C5: when two distinct domains both attain the maximum (nonzero)
score, `classify_query` selects the domain that comes earliest in the fixed
declaration order of `domain_keywords` (Admission, Scholarship,
Student Affairs, Academics, Migration): the scores list decomposes around the
returned domain, every earlier domain scores strictly below the maximum, and
the returned responder is that domain's statically mapped teacher. -/
theorem C5_tie_break_declaration_order (q : String) (d₁ d₂ : String)
    (h₁ : (d₁, maxScore q) ∈ domainScores q)
    (h₂ : (d₂, maxScore q) ∈ domainScores q)
    (hne : d₁ ≠ d₂) (hpos : 0 < maxScore q) :
    ∃ l₁ l₂ d,
      domainScores q = l₁ ++ (d, maxScore q) :: l₂ ∧
      (∀ p ∈ l₁, p.2 < maxScore q) ∧
      classify_query q = (d, labelsGet d) := by
  obtain ⟨p, hp, hcq⟩ := classify_pos q hpos
  obtain ⟨hpx, l₁, l₂, hdec, hl₁⟩ := find?_decomp _ _ _ hp
  have hp2 : p.2 = maxScore q := by simpa using hpx
  have hpeta : (p.1, maxScore q) = p := by
    rw [← hp2]
  refine ⟨l₁, l₂, p.1, by rw [hpeta]; exact hdec, ?_, hcq⟩
  intro p' hp'
  have hne' : p'.2 ≠ maxScore q := by
    simpa using hl₁ p' hp'
  have hle : p'.2 ≤ maxScore q := by
    apply le_listMax
    apply List.mem_map_of_mem
    rw [hdec]
    exact List.mem_append_left _ hp'
  omega

/-- Witness for C5: `"admission scholarship"` scores Admission and Scholarship
both at the maximum 1, and the classifier resolves the tie for Admission. -/
theorem C5_witness :
    ∃ l₁ l₂ d,
      domainScores "admission scholarship" =
        l₁ ++ (d, maxScore "admission scholarship") :: l₂ ∧
      (∀ p ∈ l₁, p.2 < maxScore "admission scholarship") ∧
      classify_query "admission scholarship" = (d, labelsGet d) :=
  C5_tie_break_declaration_order "admission scholarship" "Admission" "Scholarship"
    (by decide) (by decide) (by decide) (by decide)

/-- Claim C6: `classify_query` always returns a `(domain, responder)` pair in
which the responder is the domain's statically mapped teacher, and whenever no
domain keyword occurs in the query (maximum score 0) it returns the fallback
(Student Affairs, Sir Sibtual Hassan). -/
theorem C6_total_with_fallback (q : String) :
    (∃ d, d ∈ labels.map Prod.fst ∧ classify_query q = (d, labelsGet d)) ∧
    (maxScore q = 0 →
      classify_query q = ("Student Affairs", "Sir Sibtual Hassan")) := by
  constructor
  · by_cases h : 0 < maxScore q
    · obtain ⟨p, hp, hcq⟩ := classify_pos q h
      have hmem : p ∈ domainScores q := List.mem_of_find?_eq_some hp
      have hkey : p.1 ∈ (domainScores q).map Prod.fst :=
        List.mem_map_of_mem _ hmem
      rw [domainScores_keys] at hkey
      refine ⟨p.1, ?_, hcq⟩
      simp only [List.mem_cons, List.not_mem_nil, or_false] at hkey
      rcases hkey with h' | h' | h' | h' | h' <;> rw [h'] <;> decide
    · have h0 : maxScore q = 0 := by omega
      refine ⟨"Student Affairs", by decide, ?_⟩
      rw [classify_zero q h0]
      decide
  · exact classify_zero q

/-- Witness for C6: a query containing no keyword falls back to
Student Affairs and its responder. -/
theorem C6_witness :
    maxScore "zzz" = 0 ∧
    classify_query "zzz" = ("Student Affairs", "Sir Sibtual Hassan") :=
  ⟨by decide, (C6_total_with_fallback "zzz").2 (by decide)⟩

/-- Claim C7: the fuzzy lookup returns at most one answer (it is an `Option`);
it returns an answer exactly when some corpus question has similarity ratio at
least 3/5 with the query; any returned match is a corpus question of maximal
ratio among all corpus questions, and the returned answer is that question's
corpus entry; and a query exactly equal to a corpus question looks up exactly
that question.  Ratios are difflib's `2M/T` computed in exact rational
arithmetic. -/
theorem C7_fuzzy_best_match (qa : List (String × String)) (q : String) :
    ((get_answer_from_dataset qa q).isSome ↔
      ∃ x ∈ qa.map Prod.fst, (3 : Rat)/5 ≤ ratioQ x q) ∧
    (∀ x, getCloseMatch q (qa.map Prod.fst) = some x →
      x ∈ qa.map Prod.fst ∧ (3 : Rat)/5 ≤ ratioQ x q ∧
      (∀ y ∈ qa.map Prod.fst, ratioQ y q ≤ ratioQ x q) ∧
      get_answer_from_dataset qa q = dictLookup qa x) ∧
    (q ∈ qa.map Prod.fst → get_answer_from_dataset qa q = dictLookup qa q) := by
  refine ⟨ga_isSome_iff qa q, ?_, ga_exact qa q⟩
  intro x hx
  obtain ⟨hm, hc, hmax⟩ := gcm_some_spec q (qa.map Prod.fst) x hx
  refine ⟨hm, hc, hmax, ?_⟩
  unfold get_answer_from_dataset
  rw [hx]

/-- Witness for C7: an exact corpus question resolves to its own entry. -/
theorem C7_witness :
    get_answer_from_dataset [("abc", "A")] "abc" =
      dictLookup [("abc", "A")] "abc" :=
  (C7_fuzzy_best_match [("abc", "A")] "abc").2.2 (by decide)

/-- Claim C8: a query whose trimmed, lowercased form is a fixed
greeting/courtesy phrase is answered with the mapped canned response; the
corpus, both unread structures and the pending query are untouched (only the
session's displayed bot response changes), and the handler returns the chat
page rather than routing anywhere. -/
theorem C8_fixed_response (st : AppState) (raw v : String)
    (h : dictLookup common_responses (pyLower (pyStrip raw)) = some v) :
    home_post st raw = ({ st with botResponse := v }, HomeResult.page v) :=
  home_post_common st raw v h

/-- Witness for C8: `"  Hi "` normalises to `"hi"` and receives the canned
greeting with no other state change. -/
theorem C8_witness :
    home_post ⟨[], [], [], [], none, ""⟩ "  Hi " =
      (⟨[], [], [], [], none, "Hello! How can I assist you today?"⟩,
       HomeResult.page "Hello! How can I assist you today?") :=
  C8_fixed_response ⟨[], [], [], [], none, ""⟩ "  Hi "
    "Hello! How can I assist you today?" (by decide)

/-- Claim C9: an unmatched query increments exactly the assigned responder's
unread count by exactly 1, persists the unread state (the persisted copy
equals the new in-memory dict), and leaves every other responder's unread
count, the corpus mapping, and the persisted corpus partition unchanged,
redirecting to the teacher page. -/
theorem C9_submit_unmatched_frame (st : AppState) (raw : String)
    (h1 : dictLookup common_responses (pyLower (pyStrip raw)) = none)
    (h2 : get_answer_from_dataset st.qa (pyLower (pyStrip raw)) = none) :
    dictGetD (home_post st raw).1.unread
        ((classify_query (pyLower (pyStrip raw))).2) 0 =
      dictGetD st.unread ((classify_query (pyLower (pyStrip raw))).2) 0 + 1 ∧
    (∀ t, t ≠ (classify_query (pyLower (pyStrip raw))).2 →
      dictLookup (home_post st raw).1.unread t = dictLookup st.unread t) ∧
    (home_post st raw).1.fileUnread = (home_post st raw).1.unread ∧
    (home_post st raw).1.qa = st.qa ∧
    (home_post st raw).1.sheet1 = st.sheet1 ∧
    (home_post st raw).2 = HomeResult.redirectTeacher := by
  rw [home_post_miss st raw h1 h2]
  refine ⟨?_, ?_, rfl, rfl, rfl, rfl⟩
  · show dictGetD (dictInsert st.unread _ _) _ 0 = _
    rw [dictGetD, dictLookup_insert_self]
    rfl
  · intro t ht
    show dictLookup (dictInsert st.unread _ _) t = _
    exact dictLookup_insert_ne _ _ _ _ ht

/-- Witness for C9 at a concrete unmatched query over the empty state. -/
theorem C9_witness :
    dictGetD (home_post ⟨[], [], [], [], none, ""⟩ "parking").1.unread
        ((classify_query (pyLower (pyStrip "parking"))).2) 0 =
      dictGetD (⟨[], [], [], [], none, ""⟩ : AppState).unread
        ((classify_query (pyLower (pyStrip "parking"))).2) 0 + 1 :=
  (C9_submit_unmatched_frame ⟨[], [], [], [], none, ""⟩ "parking"
    (by decide) (by decide)).1

/-- Claim C10: every question processed by the query endpoint is first trimmed
and lowercased -- the pending question it stores is always the
trimmed-lowercased raw input; consequently any corpus entry appended through
the answer operation after such a submission has a lowercase-invariant
question key; and corpus entries loaded from the spreadsheet at startup keep
their question text verbatim (no case transformation), subject only to the
blank-question row filter. -/
theorem C10_normalisation_invariant :
    (∀ (st : AppState) (raw : String),
      (home_post st raw).1.pending = st.pending ∨
      ∃ t, (home_post st raw).1.pending = some (pyLower (pyStrip raw), t)) ∧
    (∀ (st : AppState) (raw r : String), st.pending = none →
      (teacher_input_post (home_post st raw).1 r).qa = (home_post st raw).1.qa ∨
      ∃ k v, (teacher_input_post (home_post st raw).1 r).qa =
          dictInsert (home_post st raw).1.qa k v ∧ pyLower k = k) ∧
    (∀ (sheetsRows : List (List (String × String))),
      ∀ k ∈ (loadQaDict sheetsRows).map Prod.fst,
        ∃ rows ∈ sheetsRows, ∃ a, (k, a) ∈ rows ∧ pyStrip k ≠ "") := by
  refine ⟨?_, ?_, ?_⟩
  · intro st raw
    cases hc : dictLookup common_responses (pyLower (pyStrip raw)) with
    | some v =>
      left
      rw [home_post_common st raw v hc]
    | none =>
      cases hg : get_answer_from_dataset st.qa (pyLower (pyStrip raw)) with
      | some a =>
        left
        rw [home_post_fuzzy st raw a hc hg]
      | none =>
        right
        exact ⟨_, by rw [home_post_miss st raw hc hg]⟩
  · intro st raw r hpend
    cases hc : dictLookup common_responses (pyLower (pyStrip raw)) with
    | some v =>
      left
      rw [home_post_common st raw v hc]
      exact congrArg AppState.qa
        (teacher_input_nopending { st with botResponse := v } r hpend)
    | none =>
      cases hg : get_answer_from_dataset st.qa (pyLower (pyStrip raw)) with
      | some a =>
        left
        rw [home_post_fuzzy st raw a hc hg]
        exact congrArg AppState.qa
          (teacher_input_nopending { st with botResponse := a } r hpend)
      | none =>
        rw [home_post_miss st raw hc hg]
        by_cases hcond : pyStrip r ≠ "" ∧
            (classify_query (pyLower (pyStrip raw))).2 ≠ "" ∧
            pyLower (pyStrip raw) ≠ ""
        · right
          refine ⟨pyLower (pyStrip raw), pyStrip r, ?_, pyLower_idem (pyStrip raw)⟩
          rw [teacher_input_apply _ r (pyLower (pyStrip raw))
            ((classify_query (pyLower (pyStrip raw))).2) rfl
            hcond.1 hcond.2.1 hcond.2.2]
        · left
          rw [teacher_input_skip _ r (pyLower (pyStrip raw))
            ((classify_query (pyLower (pyStrip raw))).2) rfl hcond]
  · intro sheetsRows k hk
    unfold loadQaDict at hk
    rcases loadQa_keys sheetsRows [] k hk with h' | h'
    · simp at h'
    · exact h'

/-- Witness for C10 at a concrete unmatched submission over the empty state:
the appended corpus key is the trimmed-lowercased raw query, which is
lowercase-invariant. -/
theorem C10_witness :
    (teacher_input_post (home_post ⟨[], [], [], [], none, ""⟩ "Where Is Parking").1
        "Lot B").qa = (home_post ⟨[], [], [], [], none, ""⟩ "Where Is Parking").1.qa ∨
    ∃ k v, (teacher_input_post
        (home_post ⟨[], [], [], [], none, ""⟩ "Where Is Parking").1 "Lot B").qa =
      dictInsert (home_post ⟨[], [], [], [], none, ""⟩ "Where Is Parking").1.qa k v ∧
      pyLower k = k :=
  C10_normalisation_invariant.2.1 ⟨[], [], [], [], none, ""⟩ "Where Is Parking"
    "Lot B" rfl
